import Mathlib

/-!
Verification of the filesystem utility module of the `rustc-perf` collector
(`collector/src/utils/fs.rs`).

The module is shallowly embedded as follows.

* A filesystem path is a list of normal components (`Path`), mirroring
  `std::path::Component::Normal`; the paths handled by this module are built
  from ordinary file and directory names, never `.` or `..`.
* A filesystem tree is the mutual inductive `FsEntry` / `FsEntries`: a regular
  file with a modification time and a byte size, a directory with a
  modification time and a named list of children, or an `other` entry (broken
  symlink, device file, ...) which is neither a regular file nor a directory.
* `touch_all` (and its inclusion predicate `is_valid`) is embedded as a pure
  recursive walk over the tree that mirrors the pre-order `walkdir` traversal
  of the source: each visited entry whose file name is `CMakeCache.txt` is
  removed (`fs::remove_file`, which fails on a non-file: the error carries the
  offending path), and each visited entry whose full path satisfies `is_valid`
  gets its modification time reset to `now`.
* `get_file_count_and_size` is embedded by resolving the argument path in the
  tree and recursively aggregating over the resolved entry, exactly matching
  the `is_dir` / `is_file` / otherwise branches of the source.
* The Unix `rename` is embedded as a function of an environment recording the
  outcome of the two external effects (the in-place `fs::rename` syscall and
  the spawned `mv` process), returning the trace of attempted actions, the
  resulting state of the source and destination slots, and the result value.
* The Windows `robocopy` fallback is embedded by its exit-status
  classification of the captured process output.
-/

namespace CollectorFs

/-- A filesystem path: the list of its normal components. -/
abbrev Path := List String

mutual
/-- A filesystem tree entry: a regular file (mtime, size), a directory
(mtime, children), or any other kind of entry (symlink, device, ...). -/
inductive FsEntry : Type where
  | file (mtime size : Nat)
  | dir (mtime : Nat) (children : FsEntries)
  | other (mtime : Nat)

/-- The named children of a directory, in traversal order. -/
inductive FsEntries : Type where
  | nil
  | cons (name : String) (entry : FsEntry) (rest : FsEntries)
end

/-- Look a child entry up by name (first match). -/
def lookupChild : FsEntries → String → Option FsEntry
  | .nil, _ => none
  | .cons n e rest, c => if n = c then some e else lookupChild rest c

/-- Membership of a named entry in a children list. -/
def memChild (n : String) (e : FsEntry) : FsEntries → Prop
  | .nil => False
  | .cons n₀ e₀ rest => (n = n₀ ∧ e = e₀) ∨ memChild n e rest

/-- Resolve a relative path inside a tree to the entry it denotes, if any. -/
def resolve : FsEntry → Path → Option FsEntry
  | e, [] => some e
  | .dir _ cs, c :: rest =>
    match lookupChild cs c with
    | some e => resolve e rest
    | none => none
  | _, _ :: _ => none

/-- Rust `Path::file_name`: the final normal component of the path. -/
def file_name (p : Path) : Option String := p.getLast?

/-- The characters after the last `.` of a list of characters, if any. -/
def afterLastDot : List Char → Option (List Char)
  | [] => none
  | c :: rest =>
    match afterLastDot rest with
    | some s => some s
    | none => if c = '.' then some rest else none

/-- Rust extension splitting on a file name: the portion after the final `.`,
where a `.` in the very first position does not start an extension (a hidden
file such as `.gitignore` has no extension). -/
def rust_extension (name : String) : Option String :=
  match name.toList with
  | [] => none
  | _ :: rest => (afterLastDot rest).map (fun cs => String.mk cs)

/-- Rust `Path::extension`: the extension of the path's file name. -/
def extension (p : Path) : Option String :=
  match file_name p with
  | some n => rust_extension n
  | none => none

/-- The inclusion predicate of `touch_all` (nested fn `is_valid` in the
source): reject any path containing a `target` component; otherwise accept
exactly the paths with extension `rs` whose file name is not `build.rs`. -/
def is_valid (p : Path) : Bool :=
  if p.contains "target" then
    false
  else
    match extension p with
    | some extn => if extn = "rs" then file_name p != some "build.rs" else false
    | none => false

/-- The effect of `touch` on an entry: reset its modification time. -/
def touchEntry (now : Nat) : FsEntry → FsEntry
  | .file _ s => .file now s
  | .dir _ cs => .dir now cs
  | .other _ => .other now

/-- Touch an entry when the condition holds, else leave it unchanged
(the `if is_valid(path) { touch(path)? }` step of the source). -/
def touchIf (b : Bool) (now : Nat) (e : FsEntry) : FsEntry :=
  if b then touchEntry now e else e

mutual
/-- One step of the `touch_all` walk at full path `p` over entry `e`:
delete the entry if it is named `CMakeCache.txt` (`fs::remove_file`, an error
carrying the path if the entry is not a regular file), touch it if `is_valid`
holds of its path, and recurse into directory children (pre-order, as
`walkdir`).  Returns `none` for a deleted entry. -/
def touch_walk (now : Nat) (p : Path) (e : FsEntry) : Except Path (Option FsEntry) :=
  if file_name p = some "CMakeCache.txt" then
    match e with
    | .file _ _ => .ok none
    | _ => .error p
  else
    match e with
    | .dir m cs =>
      match touch_children now p cs with
      | .ok cs' => .ok (some (touchIf (is_valid p) now (.dir m cs')))
      | .error q => .error q
    | e₀ => .ok (some (touchIf (is_valid p) now e₀))

/-- The `touch_all` walk over the children of the directory at path `p`,
in order, stopping at the first error. -/
def touch_children (now : Nat) (p : Path) : FsEntries → Except Path FsEntries
  | .nil => .ok .nil
  | .cons n e rest =>
    match touch_walk now (p ++ [n]) e with
    | .error q => .error q
    | .ok none => touch_children now p rest
    | .ok (some e') =>
      match touch_children now p rest with
      | .ok rest' => .ok (.cons n e' rest')
      | .error q => .error q
end

/-- `touch_all`: reset the modification time of all `is_valid` files under
the given root (whose own full path is `root`), deleting every
`CMakeCache.txt` encountered.  Returns the transformed tree (`none` when the
root itself was a deleted `CMakeCache.txt` file), or the offending path on a
failed deletion. -/
def touch_all (now : Nat) (root : Path) (e : FsEntry) : Except Path (Option FsEntry) :=
  touch_walk now root e

mutual
/-- The recursion of `get_file_count_and_size` on a resolved entry:
a directory sums the counts and sizes of its children, a regular file
contributes `(1, size)`, anything else contributes `(0, 0)`. -/
def entryStats : FsEntry → Nat × Nat
  | .file _ s => (1, s)
  | .dir _ cs => childStats cs
  | .other _ => (0, 0)

/-- Sum of `entryStats` over a children list, in order. -/
def childStats : FsEntries → Nat × Nat
  | .nil => (0, 0)
  | .cons _ e rest =>
    let a := entryStats e
    let b := childStats rest
    (a.1 + b.1, a.2 + b.2)
end

/-- Stats of an optional entry: a nonexistent path contributes `(0, 0)`. -/
def statsOpt : Option FsEntry → Nat × Nat
  | some e => entryStats e
  | none => (0, 0)

/-- Rust `Path::is_dir` relative to a tree. -/
def is_dir (fs : FsEntry) (p : Path) : Bool :=
  match resolve fs p with
  | some (.dir _ _) => true
  | _ => false

/-- Rust `Path::is_file` relative to a tree. -/
def is_file (fs : FsEntry) (p : Path) : Bool :=
  match resolve fs p with
  | some (.file _ _) => true
  | _ => false

/-- `get_file_count_and_size` of a path inside a tree: resolve the path and
aggregate over the resolved entry (directory branch when `is_dir`, file
branch when `is_file`, `(0, 0)` otherwise). -/
def get_file_count_and_size (fs : FsEntry) (p : Path) : Nat × Nat :=
  statsOpt (resolve fs p)

mutual
/-- The sizes of all regular files in a tree, in traversal order. -/
def fileSizes : FsEntry → List Nat
  | .file _ s => [s]
  | .dir _ cs => fileSizesChildren cs
  | .other _ => []

/-- The sizes of all regular files under a children list, in order. -/
def fileSizesChildren : FsEntries → List Nat
  | .nil => []
  | .cons _ e rest => fileSizes e ++ fileSizesChildren rest
end

mutual
/-- A positive structural size of an entry, bounding the recursion depth of
`get_file_count_and_size`. -/
def entrySize : FsEntry → Nat
  | .file _ _ => 1
  | .other _ => 1
  | .dir _ cs => 1 + childrenSize cs

/-- A positive structural size of a children list. -/
def childrenSize : FsEntries → Nat
  | .nil => 1
  | .cons _ e rest => 1 + entrySize e + childrenSize rest
end

mutual
/-- Fuel-bounded version of the recursion of `get_file_count_and_size`,
modelling the source's unbounded recursion: `none` means the fuel was
exhausted before the recursion bottomed out. -/
def statsFuel (fuel : Nat) (e : FsEntry) : Option (Nat × Nat) :=
  match fuel with
  | 0 => none
  | f + 1 =>
    match e with
    | .file _ s => some (1, s)
    | .dir _ cs => statsChildrenFuel f cs
    | .other _ => some (0, 0)
termination_by (fuel, entrySize e)
decreasing_by
  all_goals simp [entrySize, childrenSize]
  all_goals omega

/-- Fuel-bounded aggregation over a children list. -/
def statsChildrenFuel (fuel : Nat) (cs : FsEntries) : Option (Nat × Nat) :=
  match cs with
  | .nil => some (0, 0)
  | .cons _ e rest =>
    match statsFuel fuel e, statsChildrenFuel fuel rest with
    | some a, some b => some (a.1 + b.1, a.2 + b.2)
    | _, _ => none
termination_by (fuel, childrenSize cs)
decreasing_by
  all_goals simp [entrySize, childrenSize]
  all_goals omega
end

/-- Outcome of spawning the external `mv` process: it either could not be
started at all, or it ran and exited with the given status. -/
inductive MvOutcome : Type where
  | launchFailure
  | exited (code : Nat)
  deriving DecidableEq

/-- Environment of one `rename` invocation: whether the in-place
`fs::rename` syscall succeeds, the outcome of the `mv` process if spawned,
and the (arbitrary, partial) state of the source and destination slots that a
failed `mv` run leaves behind. -/
structure MoveEnv : Type where
  renameOk : Bool
  mv : MvOutcome
  srcAfterFail : Option FsEntry
  dstAfterFail : Option FsEntry

/-- State of the two filesystem locations a `rename` call operates on:
the tree at the source path and the tree at the destination path, if any. -/
structure MoveState : Type where
  src : Option FsEntry
  dst : Option FsEntry

/-- Errors of the Unix `rename`: the `mv` process could not be launched
(the `.with_context` error on `status()`), or it ran and exited with a
non-zero status (the `anyhow::bail!` branch). -/
inductive RenameError : Type where
  | launch
  | mvExit (code : Nat)
  deriving DecidableEq

/-- Observable external actions of `rename`, in order: the in-place rename
attempt, and the spawned `mv` with its two arguments. -/
inductive FsAction : Type where
  | fsRename (src dst : Path)
  | spawnMv (src dst : Path)
  deriving DecidableEq

/-- The Unix `rename(from, to)`: attempt the in-place `fs::rename`; only if
it fails, spawn `mv from to`; exit status zero is success, a non-zero exit
status is a `RenameError.mvExit` error, and a launch failure is the distinct
`RenameError.launch` error.  Returns the trace of attempted actions, the
resulting state of the source and destination slots (a successful move puts
the source tree at the destination and empties the source; a failed `mv` run
leaves the arbitrary partial state recorded in the environment; a launch
failure leaves the state untouched), and the result value. -/
def rename (env : MoveEnv) (src dst : Path) (st : MoveState) :
    List FsAction × MoveState × Except RenameError Unit :=
  if env.renameOk then
    ([.fsRename src dst], ⟨none, st.src⟩, .ok ())
  else
    match env.mv with
    | .launchFailure =>
      ([.fsRename src dst, .spawnMv src dst], st, .error .launch)
    | .exited code =>
      if code = 0 then
        ([.fsRename src dst, .spawnMv src dst], ⟨none, st.src⟩, .ok ())
      else
        ([.fsRename src dst, .spawnMv src dst], ⟨env.srcAfterFail, env.dstAfterFail⟩,
          .error (.mvExit code))

/-- Captured output of the spawned `robocopy` process, as returned by
`run_command_with_output`: the exit status code (always present on Windows)
and the captured standard output and error streams. -/
structure ProcessOutput : Type where
  code : Int
  stdout : String
  stderr : String
  deriving DecidableEq

/-- The data carried by the error `robocopy` builds on failure: the exit
status and the captured stderr and stdout, in the order they are formatted
into the `anyhow::anyhow!` message. -/
structure RobocopyFailure : Type where
  status : Int
  stderr : String
  stdout : String
  deriving DecidableEq

/-- The Windows `robocopy` fallback, given the captured output of the spawned
process: exit statuses `0..=7` are success (`robocopy returns 0-7 on
success`), any status at or above `8` is an error carrying the status and the
captured streams. -/
def robocopy (out : ProcessOutput) : Except RobocopyFailure Unit :=
  if out.code ≥ 8 then
    .error ⟨out.code, out.stderr, out.stdout⟩
  else
    .ok ()

/-- Top-level correspondence between an entry before and after the touch
walk, at inclusion decision `v`: the kind and (for files) the size are
unchanged, and the modification time is reset to `now` exactly when `v`
holds. -/
def topMatch (now : Nat) (v : Bool) : FsEntry → FsEntry → Prop
  | .file m s, .file m' s' => s' = s ∧ m' = (if v then now else m)
  | .dir m _, .dir m' _ => m' = (if v then now else m)
  | .other m, .other m' => m' = (if v then now else m)
  | _, _ => False

mutual
/-- Mutual induction on filesystem entries. -/
theorem fsEntryInd {P : FsEntry → Prop} {Q : FsEntries → Prop}
    (hf : ∀ m s, P (.file m s))
    (ho : ∀ m, P (.other m))
    (hd : ∀ m cs, Q cs → P (.dir m cs))
    (hn : Q .nil)
    (hc : ∀ n e rest, P e → Q rest → Q (.cons n e rest)) :
    ∀ e, P e
  | .file m s => hf m s
  | .other m => ho m
  | .dir m cs => hd m cs (fsEntriesInd hf ho hd hn hc cs)

/-- Mutual induction on children lists. -/
theorem fsEntriesInd {P : FsEntry → Prop} {Q : FsEntries → Prop}
    (hf : ∀ m s, P (.file m s))
    (ho : ∀ m, P (.other m))
    (hd : ∀ m cs, Q cs → P (.dir m cs))
    (hn : Q .nil)
    (hc : ∀ n e rest, P e → Q rest → Q (.cons n e rest)) :
    ∀ cs, Q cs
  | .nil => hn
  | .cons n e rest =>
    hc n e rest (fsEntryInd hf ho hd hn hc e) (fsEntriesInd hf ho hd hn hc rest)
end

/-- A property holding of every entry of a children list. -/
def allChildren (P : FsEntry → Prop) (cs : FsEntries) : Prop :=
  ∀ n e, memChild n e cs → P e

theorem allChildren_nil (P : FsEntry → Prop) : allChildren P .nil := by
  intro n e h
  simp [memChild] at h

theorem allChildren_cons {P : FsEntry → Prop} {n : String} {e : FsEntry} {rest : FsEntries}
    (he : P e) (hrest : allChildren P rest) : allChildren P (.cons n e rest) := by
  intro n₀ e₀ h
  simp only [memChild] at h
  rcases h with ⟨_, rfl⟩ | h
  · exact he
  · exact hrest _ _ h

/-- Induction on entries with the hypothesis available for every child of a
directory. -/
theorem fsStrongInd {P : FsEntry → Prop}
    (hf : ∀ m s, P (.file m s))
    (ho : ∀ m, P (.other m))
    (hd : ∀ m cs, allChildren P cs → P (.dir m cs)) :
    ∀ e, P e :=
  fsEntryInd hf ho hd (allChildren_nil P) (fun _ _ _ he hrest => allChildren_cons he hrest)

theorem lookupChild_mem : ∀ (cs : FsEntries) (c : String) (e : FsEntry),
    lookupChild cs c = some e → memChild c e cs
  | .nil, c, e => by intro h; simp [lookupChild] at h
  | .cons n e₀ rest, c, e => by
    intro h
    simp only [lookupChild] at h
    by_cases hnc : n = c
    · rw [if_pos hnc] at h
      simp only [Option.some.injEq] at h
      exact Or.inl ⟨hnc.symm, h.symm⟩
    · rw [if_neg hnc] at h
      exact Or.inr (lookupChild_mem rest c e h)

theorem file_name_append (p : Path) (n : String) : file_name (p ++ [n]) = some n := by
  simp [file_name]

/-- Unfolding of the walk on a directory at a `CMakeCache.txt` path:
`fs::remove_file` fails on a directory. -/
theorem touch_walk_cmake_dir {now : Nat} {p : Path} {m : Nat} {cs : FsEntries}
    (hn : file_name p = some "CMakeCache.txt") :
    touch_walk now p (.dir m cs) = .error p := by
  rw [touch_walk.eq_def, if_pos hn]

/-- Unfolding of the walk on an `other` entry at a `CMakeCache.txt` path. -/
theorem touch_walk_cmake_other {now : Nat} {p : Path} {m : Nat}
    (hn : file_name p = some "CMakeCache.txt") :
    touch_walk now p (.other m) = .error p := by
  rw [touch_walk.eq_def, if_pos hn]

/-- Unfolding of the walk on a regular file at a `CMakeCache.txt` path:
the file is deleted. -/
theorem touch_walk_cmake_file {now : Nat} {p : Path} {m s : Nat}
    (hn : file_name p = some "CMakeCache.txt") :
    touch_walk now p (.file m s) = .ok none := by
  rw [touch_walk.eq_def, if_pos hn]

/-- Unfolding of the walk on a regular file away from `CMakeCache.txt`. -/
theorem touch_walk_file {now : Nat} {p : Path} {m s : Nat}
    (hn : ¬ file_name p = some "CMakeCache.txt") :
    touch_walk now p (.file m s) = .ok (some (touchIf (is_valid p) now (.file m s))) := by
  rw [touch_walk.eq_def, if_neg hn]

/-- Unfolding of the walk on an `other` entry away from `CMakeCache.txt`. -/
theorem touch_walk_other {now : Nat} {p : Path} {m : Nat}
    (hn : ¬ file_name p = some "CMakeCache.txt") :
    touch_walk now p (.other m) = .ok (some (touchIf (is_valid p) now (.other m))) := by
  rw [touch_walk.eq_def, if_neg hn]

/-- Unfolding of the walk on a directory away from `CMakeCache.txt`. -/
theorem touch_walk_dir {now : Nat} {p : Path} {m : Nat} {cs : FsEntries}
    (hn : ¬ file_name p = some "CMakeCache.txt") :
    touch_walk now p (.dir m cs) =
      match touch_children now p cs with
      | .ok cs' => .ok (some (touchIf (is_valid p) now (.dir m cs')))
      | .error q => .error q := by
  rw [touch_walk.eq_def, if_neg hn]

/-- Unfolding of the children walk on the empty list. -/
theorem touch_children_nil {now : Nat} {p : Path} :
    touch_children now p .nil = .ok .nil := by
  rw [touch_children.eq_def]

/-- Unfolding of the children walk on a cons cell. -/
theorem touch_children_cons {now : Nat} {p : Path} {n : String} {e : FsEntry}
    {rest : FsEntries} :
    touch_children now p (.cons n e rest) =
      match touch_walk now (p ++ [n]) e with
      | .error q => .error q
      | .ok none => touch_children now p rest
      | .ok (some e') =>
        match touch_children now p rest with
        | .ok rest' => .ok (.cons n e' rest')
        | .error q => .error q := by
  rw [touch_children.eq_def]

/-- A walk step that returns a surviving entry is not at a `CMakeCache.txt`
path. -/
theorem touch_walk_ok_some_name {now : Nat} {p : Path} {e e' : FsEntry}
    (h : touch_walk now p e = .ok (some e')) :
    ¬ file_name p = some "CMakeCache.txt" := by
  intro hn
  cases e with
  | file m s => rw [touch_walk_cmake_file hn] at h; exact Option.noConfusion (Except.ok.inj h)
  | dir m cs => rw [touch_walk_cmake_dir hn] at h; exact Except.noConfusion h
  | other m => rw [touch_walk_cmake_other hn] at h; exact Except.noConfusion h

/-- A walk step that deletes its entry is at a `CMakeCache.txt` path. -/
theorem touch_walk_ok_none_name {now : Nat} {p : Path} {e : FsEntry}
    (h : touch_walk now p e = .ok none) :
    file_name p = some "CMakeCache.txt" := by
  by_cases hn : file_name p = some "CMakeCache.txt"
  · exact hn
  · exfalso
    cases e with
    | dir m cs =>
      rw [touch_walk_dir hn] at h
      cases htc : touch_children now p cs <;> rw [htc] at h <;> simp at h
    | file m s => rw [touch_walk_file hn] at h; simp at h
    | other m => rw [touch_walk_other hn] at h; simp at h

/-- Inversion of a successful walk step on a directory away from
`CMakeCache.txt`: the children were walked successfully and the directory's
mtime was reset exactly when its path is `is_valid`. -/
theorem touch_walk_dir_inv {now : Nat} {p : Path} {m : Nat} {cs : FsEntries} {e' : FsEntry}
    (hn : ¬ file_name p = some "CMakeCache.txt")
    (h : touch_walk now p (.dir m cs) = .ok (some e')) :
    ∃ cs', touch_children now p cs = .ok cs' ∧
      e' = .dir (if is_valid p then now else m) cs' := by
  rw [touch_walk_dir hn] at h
  cases htc : touch_children now p cs with
  | ok cs' =>
    rw [htc] at h
    simp only [Except.ok.injEq, Option.some.injEq] at h
    refine ⟨cs', rfl, ?_⟩
    rw [← h]
    cases hv : is_valid p <;> simp [touchIf, touchEntry, hv]
  | error q => rw [htc] at h; simp at h

/-- Inversion of a successful walk step on a non-directory away from
`CMakeCache.txt`. -/
theorem touch_walk_base_inv {now : Nat} {p : Path} {e e' : FsEntry}
    (hn : ¬ file_name p = some "CMakeCache.txt")
    (hnd : ∀ m cs, e ≠ .dir m cs)
    (h : touch_walk now p e = .ok (some e')) :
    e' = touchIf (is_valid p) now e := by
  cases e with
  | dir m cs => exact absurd rfl (hnd m cs)
  | file m s =>
    rw [touch_walk_file hn] at h
    simp only [Except.ok.injEq, Option.some.injEq] at h
    exact h.symm
  | other m =>
    rw [touch_walk_other hn] at h
    simp only [Except.ok.injEq, Option.some.injEq] at h
    exact h.symm

/-- Every entry of the output of a successful children walk comes from the
entry of the same name in the input, via a successful surviving walk step. -/
theorem touch_children_lookup {now : Nat} {p : Path} :
    ∀ (cs cs' : FsEntries), touch_children now p cs = .ok cs' →
    ∀ (c : String) (c' : FsEntry), lookupChild cs' c = some c' →
    ∃ cc, lookupChild cs c = some cc ∧ touch_walk now (p ++ [c]) cc = .ok (some c')
  | .nil, cs' => by
    intro h c c' hl
    rw [touch_children_nil] at h
    obtain rfl : FsEntries.nil = cs' := Except.ok.inj h
    simp [lookupChild] at hl
  | .cons n e rest, cs' => by
    intro h c c' hl
    rw [touch_children_cons] at h
    cases hw : touch_walk now (p ++ [n]) e with
    | error q => rw [hw] at h; exact Except.noConfusion h
    | ok r =>
      rw [hw] at h
      cases r with
      | none =>
        have hnm : n = "CMakeCache.txt" := by
          have hcm := touch_walk_ok_none_name hw
          rw [file_name_append] at hcm
          exact Option.some.inj hcm
        obtain ⟨cc, hcc, hwcc⟩ := touch_children_lookup rest cs' h c c' hl
        have hcn : ¬ n = c := by
          intro he
          refine touch_walk_ok_some_name hwcc ?_
          rw [file_name_append, ← he, hnm]
        refine ⟨cc, ?_, hwcc⟩
        simp [lookupChild, if_neg hcn, hcc]
      | some e' =>
        cases hr : touch_children now p rest with
        | error q => rw [hr] at h; exact Except.noConfusion h
        | ok rest' =>
          rw [hr] at h
          obtain rfl : FsEntries.cons n e' rest' = cs' := Except.ok.inj h
          simp only [lookupChild] at hl
          by_cases hcn : n = c
          · rw [if_pos hcn] at hl
            obtain rfl : e' = c' := Option.some.inj hl
            subst hcn
            exact ⟨e, by simp [lookupChild], hw⟩
          · rw [if_neg hcn] at hl
            obtain ⟨cc, hcc, hwcc⟩ := touch_children_lookup rest rest' hr c c' hl
            exact ⟨cc, by simp [lookupChild, if_neg hcn, hcc], hwcc⟩

/-- A failing children walk fails on the walk of one of its members, with the
same error payload. -/
theorem touch_children_error {now : Nat} {p : Path} :
    ∀ (cs : FsEntries) (q : Path), touch_children now p cs = .error q →
    ∃ n cc, memChild n cc cs ∧ touch_walk now (p ++ [n]) cc = .error q
  | .nil, q => by
    intro h
    rw [touch_children_nil] at h
    exact Except.noConfusion h
  | .cons n e rest, q => by
    intro h
    rw [touch_children_cons] at h
    cases hw : touch_walk now (p ++ [n]) e with
    | error q₀ =>
      rw [hw] at h
      obtain rfl : q₀ = q := Except.error.inj h
      exact ⟨n, e, Or.inl ⟨rfl, rfl⟩, hw⟩
    | ok r =>
      rw [hw] at h
      cases r with
      | none =>
        obtain ⟨n₀, cc, hm, hwe⟩ := touch_children_error rest q h
        exact ⟨n₀, cc, Or.inr hm, hwe⟩
      | some e' =>
        cases hr : touch_children now p rest with
        | error q₀ =>
          rw [hr] at h
          have hq : q₀ = q := Except.error.inj h
          obtain ⟨n₀, cc, hm, hwe⟩ := touch_children_error rest q₀ hr
          exact ⟨n₀, cc, Or.inr hm, hq ▸ hwe⟩
        | ok rest' => rw [hr] at h; exact Except.noConfusion h

/-- In a successful children walk, the walk step of every member found by
lookup returned without error. -/
theorem touch_children_proc {now : Nat} {p : Path} :
    ∀ (cs cs' : FsEntries), touch_children now p cs = .ok cs' →
    ∀ (c : String) (cc : FsEntry), lookupChild cs c = some cc →
    ∃ r, touch_walk now (p ++ [c]) cc = .ok r
  | .nil, cs' => by
    intro _ c cc hl
    simp [lookupChild] at hl
  | .cons n e rest, cs' => by
    intro h c cc hl
    rw [touch_children_cons] at h
    simp only [lookupChild] at hl
    cases hw : touch_walk now (p ++ [n]) e with
    | error q => rw [hw] at h; exact Except.noConfusion h
    | ok r =>
      rw [hw] at h
      by_cases hcn : n = c
      · rw [if_pos hcn] at hl
        obtain rfl : e = cc := Option.some.inj hl
        subst hcn
        exact ⟨r, hw⟩
      · rw [if_neg hcn] at hl
        cases r with
        | none => exact touch_children_proc rest cs' h c cc hl
        | some e' =>
          cases hr : touch_children now p rest with
          | error q => rw [hr] at h; exact Except.noConfusion h
          | ok rest' => exact touch_children_proc rest rest' hr c cc hl

/-- Main correspondence of the touch walk: every entry surviving a successful
walk comes from the entry at the same relative path of the input tree, with
its kind and (for regular files) its size unchanged, and its modification
time reset to `now` exactly when its full path satisfies `is_valid`. -/
theorem touch_walk_resolve :
    ∀ (e : FsEntry), ∀ (now : Nat) (p : Path) (e' : FsEntry),
      touch_walk now p e = .ok (some e') →
      ∀ (q : Path) (x' : FsEntry), resolve e' q = some x' →
      ∃ x, resolve e q = some x ∧ topMatch now (is_valid (p ++ q)) x x' := by
  refine fsStrongInd ?_ ?_ ?_
  · intro m s now p e' h q x' hr
    have hn := touch_walk_ok_some_name h
    rw [touch_walk_file hn] at h
    obtain rfl : touchIf (is_valid p) now (.file m s) = e' :=
      Option.some.inj (Except.ok.inj h)
    cases q with
    | nil =>
      simp only [resolve, Option.some.injEq] at hr
      refine ⟨.file m s, rfl, ?_⟩
      rw [List.append_nil, ← hr]
      cases hv : is_valid p <;> simp [touchIf, touchEntry, topMatch, hv]
    | cons c rest =>
      cases hv : is_valid p <;> simp [touchIf, touchEntry, hv, resolve] at hr
  · intro m now p e' h q x' hr
    have hn := touch_walk_ok_some_name h
    rw [touch_walk_other hn] at h
    obtain rfl : touchIf (is_valid p) now (.other m) = e' :=
      Option.some.inj (Except.ok.inj h)
    cases q with
    | nil =>
      simp only [resolve, Option.some.injEq] at hr
      refine ⟨.other m, rfl, ?_⟩
      rw [List.append_nil, ← hr]
      cases hv : is_valid p <;> simp [touchIf, touchEntry, topMatch, hv]
    | cons c rest =>
      cases hv : is_valid p <;> simp [touchIf, touchEntry, hv, resolve] at hr
  · intro m cs hall now p e' h q x' hr
    have hn := touch_walk_ok_some_name h
    obtain ⟨cs', htc, rfl⟩ := touch_walk_dir_inv hn h
    cases q with
    | nil =>
      simp only [resolve, Option.some.injEq] at hr
      refine ⟨.dir m cs, rfl, ?_⟩
      rw [List.append_nil, ← hr]
      simp [topMatch]
    | cons c rest =>
      simp only [resolve] at hr
      cases hl : lookupChild cs' c with
      | none => rw [hl] at hr; simp at hr
      | some c₁ =>
        rw [hl] at hr
        simp only at hr
        obtain ⟨cc, hcc, hwcc⟩ := touch_children_lookup cs cs' htc c c₁ hl
        obtain ⟨x, hx, htm⟩ :=
          hall c cc (lookupChild_mem cs c cc hcc) now (p ++ [c]) c₁ hwcc rest x' hr
        refine ⟨x, ?_, ?_⟩
        · simp only [resolve, hcc]
          exact hx
        · rw [List.append_assoc] at htm
          exact htm

/-- After a successful walk, no entry named `CMakeCache.txt` remains
anywhere in the resulting tree. -/
theorem touch_walk_no_cmake_left :
    ∀ (e : FsEntry), ∀ (now : Nat) (p : Path) (e' : FsEntry),
      touch_walk now p e = .ok (some e') →
      ∀ (q : Path) (x' : FsEntry), resolve e' q = some x' →
      ¬ file_name q = some "CMakeCache.txt" := by
  refine fsStrongInd ?_ ?_ ?_
  · intro m s now p e' h q x' hr
    have hn := touch_walk_ok_some_name h
    rw [touch_walk_file hn] at h
    obtain rfl : touchIf (is_valid p) now (.file m s) = e' :=
      Option.some.inj (Except.ok.inj h)
    cases q with
    | nil => simp [file_name]
    | cons c rest =>
      cases hv : is_valid p <;> simp [touchIf, touchEntry, hv, resolve] at hr
  · intro m now p e' h q x' hr
    have hn := touch_walk_ok_some_name h
    rw [touch_walk_other hn] at h
    obtain rfl : touchIf (is_valid p) now (.other m) = e' :=
      Option.some.inj (Except.ok.inj h)
    cases q with
    | nil => simp [file_name]
    | cons c rest =>
      cases hv : is_valid p <;> simp [touchIf, touchEntry, hv, resolve] at hr
  · intro m cs hall now p e' h q x' hr
    have hn := touch_walk_ok_some_name h
    obtain ⟨cs', htc, rfl⟩ := touch_walk_dir_inv hn h
    cases q with
    | nil => simp [file_name]
    | cons c rest =>
      simp only [resolve] at hr
      cases hl : lookupChild cs' c with
      | none => rw [hl] at hr; simp at hr
      | some c₁ =>
        rw [hl] at hr
        simp only at hr
        obtain ⟨cc, hcc, hwcc⟩ := touch_children_lookup cs cs' htc c c₁ hl
        cases rest with
        | nil =>
          have hc : ¬ file_name (p ++ [c]) = some "CMakeCache.txt" :=
            touch_walk_ok_some_name hwcc
          rw [file_name_append] at hc
          simp only [file_name, List.getLast?_singleton]
          intro hcon
          exact hc hcon
        | cons r rs =>
          have := hall c cc (lookupChild_mem cs c cc hcc) now (p ++ [c]) c₁ hwcc
            (r :: rs) x' hr
          simp only [file_name, List.getLast?_cons_cons]
          exact this

/-- The error of a failing walk always carries a `CMakeCache.txt` path:
the only failure the walk models is a failed cache deletion, and it
propagates the offending path. -/
theorem touch_walk_error_cmake :
    ∀ (e : FsEntry), ∀ (now : Nat) (p : Path) (q' : Path),
      touch_walk now p e = .error q' →
      file_name q' = some "CMakeCache.txt" := by
  refine fsStrongInd ?_ ?_ ?_
  · intro m s now p q' h
    by_cases hn : file_name p = some "CMakeCache.txt"
    · rw [touch_walk_cmake_file hn] at h; exact Except.noConfusion h
    · rw [touch_walk_file hn] at h; exact Except.noConfusion h
  · intro m now p q' h
    by_cases hn : file_name p = some "CMakeCache.txt"
    · rw [touch_walk_cmake_other hn] at h
      obtain rfl : p = q' := Except.error.inj h
      exact hn
    · rw [touch_walk_other hn] at h; exact Except.noConfusion h
  · intro m cs hall now p q' h
    by_cases hn : file_name p = some "CMakeCache.txt"
    · rw [touch_walk_cmake_dir hn] at h
      obtain rfl : p = q' := Except.error.inj h
      exact hn
    · rw [touch_walk_dir hn] at h
      cases htc : touch_children now p cs with
      | ok cs' => rw [htc] at h; exact Except.noConfusion h
      | error q₀ =>
        rw [htc] at h
        obtain rfl : q₀ = q' := Except.error.inj h
        obtain ⟨n, cc, hm, hwe⟩ := touch_children_error cs q₀ htc
        exact hall n cc hm now (p ++ [n]) q₀ hwe

/-- If the walk finishes without error, every entry of the input tree whose
full path is named `CMakeCache.txt` was a regular file (otherwise its
deletion would have failed). -/
theorem touch_walk_cmake_entries_are_files :
    ∀ (e : FsEntry), ∀ (now : Nat) (p : Path) (r : Option FsEntry),
      touch_walk now p e = .ok r →
      ∀ (q : Path) (x : FsEntry), resolve e q = some x →
      file_name (p ++ q) = some "CMakeCache.txt" →
      ∃ m s, x = .file m s := by
  refine fsStrongInd ?_ ?_ ?_
  · intro m s now p r h q x hrx hcm
    cases q with
    | nil =>
      simp only [resolve, Option.some.injEq] at hrx
      exact ⟨m, s, hrx.symm⟩
    | cons c rest => simp [resolve] at hrx
  · intro m now p r h q x hrx hcm
    cases q with
    | nil =>
      rw [List.append_nil] at hcm
      rw [touch_walk_cmake_other hcm] at h
      exact Except.noConfusion h
    | cons c rest => simp [resolve] at hrx
  · intro m cs hall now p r h q x hrx hcm
    cases q with
    | nil =>
      rw [List.append_nil] at hcm
      rw [touch_walk_cmake_dir hcm] at h
      exact Except.noConfusion h
    | cons c rest =>
      simp only [resolve] at hrx
      cases hl : lookupChild cs c with
      | none => rw [hl] at hrx; simp at hrx
      | some cc =>
        rw [hl] at hrx
        simp only at hrx
        by_cases hn : file_name p = some "CMakeCache.txt"
        · rw [touch_walk_cmake_dir hn] at h; exact Except.noConfusion h
        · rw [touch_walk_dir hn] at h
          cases htc : touch_children now p cs with
          | error q₀ => rw [htc] at h; exact Except.noConfusion h
          | ok cs' =>
            obtain ⟨r', hwr⟩ := touch_children_proc cs cs' htc c cc hl
            refine hall c cc (lookupChild_mem cs c cc hl) now (p ++ [c]) r' hwr
              rest x hrx ?_
            rw [List.append_assoc]
            exact hcm

/-- A path containing a `target` component is rejected by `is_valid`. -/
theorem is_valid_target {p : Path} (h : p.contains "target" = true) :
    is_valid p = false := by
  unfold is_valid
  rw [if_pos h]

/-- The Rust extension of the file name `build.rs` is `rs`. -/
theorem rust_extension_build_rs : rust_extension "build.rs" = some "rs" := by
  decide

/-- A path whose file name is `build.rs` is rejected by `is_valid`. -/
theorem is_valid_build_rs {p : Path} (h : file_name p = some "build.rs") :
    is_valid p = false := by
  have hx : extension p = some "rs" := by
    rw [extension, h]
    show rust_extension "build.rs" = some "rs"
    exact rust_extension_build_rs
  by_cases ht : p.contains "target" = true
  · unfold is_valid
    rw [if_pos ht]
  · unfold is_valid
    rw [if_neg ht, hx]
    show (if "rs" = "rs" then file_name p != some "build.rs" else false) = false
    rw [if_pos rfl, h]
    exact bne_self_eq_false _

/-- The aggregation of `get_file_count_and_size` returns exactly the number
of regular files in the tree and the sum of their sizes: no entry is
double-counted and directories and non-files contribute nothing. -/
theorem entryStats_files :
    ∀ e : FsEntry,
      entryStats e = ((fileSizes e).length, (fileSizes e).sum) := by
  refine fsEntryInd (Q := fun cs =>
      childStats cs = ((fileSizesChildren cs).length, (fileSizesChildren cs).sum))
    ?_ ?_ ?_ ?_ ?_
  · intro m s; simp [entryStats, fileSizes]
  · intro m; simp [entryStats, fileSizes]
  · intro m cs hq; simpa [entryStats, fileSizes] using hq
  · simp [childStats, fileSizesChildren]
  · intro n e rest he hrest
    simp [childStats, fileSizesChildren, he, hrest]

/-- With fuel at least the structural size of the input, the fuel-bounded
recursion of `get_file_count_and_size` terminates and computes the total
function: the recursion descends only into direct children, so any finite
tree is handled by finite fuel. -/
theorem statsFuel_adequate :
    ∀ fuel : Nat,
      (∀ e, entrySize e ≤ fuel → statsFuel fuel e = some (entryStats e)) ∧
      (∀ cs, childrenSize cs ≤ fuel →
        statsChildrenFuel fuel cs = some (childStats cs)) := by
  intro fuel
  induction fuel with
  | zero =>
    constructor
    · intro e he
      exfalso
      cases e <;> simp [entrySize] at he
    · intro cs hcs
      exfalso
      cases cs <;> simp [childrenSize] at hcs
  | succ f ih =>
    have hE : ∀ e, entrySize e ≤ f + 1 → statsFuel (f + 1) e = some (entryStats e) := by
      intro e he
      cases e with
      | file m s => rw [statsFuel.eq_def]; simp [entryStats]
      | other m => rw [statsFuel.eq_def]; simp [entryStats]
      | dir m cs =>
        rw [statsFuel.eq_def]
        simp only [entryStats]
        refine ih.2 cs ?_
        simp only [entrySize] at he
        omega
    refine ⟨hE, ?_⟩
    refine fsEntriesInd (P := fun _ => True) (Q := fun cs =>
        childrenSize cs ≤ f + 1 →
          statsChildrenFuel (f + 1) cs = some (childStats cs))
      (fun _ _ => trivial) (fun _ => trivial) (fun _ _ _ => trivial) ?_ ?_
    · intro _
      rw [statsChildrenFuel.eq_def]
      simp [childStats]
    · intro n e rest _ hrest hsz
      have hcons : statsChildrenFuel (f + 1) (.cons n e rest) =
          match statsFuel (f + 1) e, statsChildrenFuel (f + 1) rest with
          | some a, some b => some (a.1 + b.1, a.2 + b.2)
          | _, _ => none := by
        rw [statsChildrenFuel.eq_def]
      rw [hcons]
      simp only [childrenSize] at hsz
      rw [hE e (by omega), hrest (by omega)]
      simp [childStats]

/-- The directory tree of the source's unit test
`test_get_file_count_and_size`: six regular files of sizes 1024, 16, 32, 64,
64, 128 across nested directories. -/
def sampleTree : FsEntry :=
  .dir 0 (.cons "a" (.dir 0
      (.cons "b" (.dir 0
        (.cons "c.rs" (.file 0 1024)
        (.cons "d.rs" (.file 0 16) .nil)))
      (.cons "x.rs" (.file 0 32) .nil)))
    (.cons "b" (.dir 0
        (.cons "x.rs" (.file 0 64)
        (.cons "x2.rs" (.file 0 64) .nil)))
    (.cons "x.rs" (.file 0 128) .nil)))

/-- A tree with a `target` subdirectory holding an `rs` file, and a
`build.rs` file, both excluded from touching. -/
def excludedTree : FsEntry :=
  .dir 0 (.cons "target" (.dir 3 (.cons "x.rs" (.file 5 7) .nil))
    (.cons "build.rs" (.file 11 13) .nil))

/-- A tree whose only entry is a `CMakeCache.txt` regular file. -/
def cmakeFileTree : FsEntry :=
  .dir 0 (.cons "CMakeCache.txt" (.file 5 7) .nil)

/-- A tree whose only entry is a directory named `CMakeCache.txt`, on which
`fs::remove_file` fails. -/
def cmakeDirTree : FsEntry :=
  .dir 0 (.cons "CMakeCache.txt" (.dir 3 .nil) .nil)

/-- Claim C4: for every finite directory tree, `get_file_count_and_size`
returns exactly the number of regular files in the tree and the sum of their
sizes, counting each file once and directories as zero, at any nesting depth;
in particular the tree with files of sizes 1024, 16, 32, 64, 64, 128 yields
`(6, 1328)`. -/
theorem claim_C4 :
    (∀ fs : FsEntry, get_file_count_and_size fs [] =
      ((fileSizes fs).length, (fileSizes fs).sum)) ∧
    get_file_count_and_size sampleTree [] = (6, 1328) := by
  constructor
  · intro fs
    show statsOpt (resolve fs []) = _
    have h : resolve fs [] = some fs := by cases fs <;> rfl
    rw [h]
    exact entryStats_files fs
  · rfl

/-- Claim C9: for every path that resolves to neither a regular file nor a
directory (a nonexistent path, a broken symlink, a special entry),
`get_file_count_and_size` does not error and returns `(0, 0)`. -/
theorem claim_C9 (fs : FsEntry) (p : Path)
    (hd : is_dir fs p = false) (hf : is_file fs p = false) :
    get_file_count_and_size fs p = (0, 0) := by
  unfold get_file_count_and_size
  cases hres : resolve fs p with
  | none => rfl
  | some e =>
    cases e with
    | file m s =>
      exfalso
      unfold is_file at hf
      rw [hres] at hf
      simp at hf
    | dir m cs =>
      exfalso
      unfold is_dir at hd
      rw [hres] at hd
      simp at hd
    | other m => rfl

/-- Witness for claim C9: a nonexistent path and an `other` entry both yield
`(0, 0)`. -/
theorem claim_C9_witness :
    get_file_count_and_size (.dir 0 .nil) ["missing"] = (0, 0) ∧
    get_file_count_and_size (.dir 0 (.cons "dev" (.other 4) .nil)) ["dev"] = (0, 0) :=
  ⟨claim_C9 (.dir 0 .nil) ["missing"] rfl rfl,
    claim_C9 (.dir 0 (.cons "dev" (.other 4) .nil)) ["dev"] rfl rfl⟩

/-- Claim C10: `get_file_count_and_size` terminates on every input tree: on
the inductive (hence finite and acyclic) tree model, fuel equal to the
structural size of the tree is enough for the fuel-bounded recursion to
return the total function's value, because the recursion descends only into
the direct children of a directory. -/
theorem claim_C10 (e : FsEntry) :
    statsFuel (entrySize e) e = some (entryStats e) :=
  (statsFuel_adequate (entrySize e)).1 e le_rfl

/-- Claim C1 (amended): for every entry that survives a successful
`touch_all`, its modification time is reset to `now` exactly when its full
path has no `target` component, has extension `rs` and is not named
`build.rs` (`is_valid`), and is unchanged otherwise — regardless of whether
the entry is a regular file, a directory or anything else; kinds and file
sizes are preserved. -/
theorem claim_C1 (now : Nat) (root q : Path) (fs fs' x' : FsEntry)
    (h : touch_all now root fs = .ok (some fs'))
    (hx : resolve fs' q = some x') :
    ∃ x, resolve fs q = some x ∧ topMatch now (is_valid (root ++ q)) x x' :=
  touch_walk_resolve fs now root fs' h q x' hx

/-- Counterexample to claim C1 as stated: `touch_all` resets the
modification time of a directory named `d.rs` (from 0 to 100), although a
directory is not a regular file, so being a regular file is not necessary
for being touched. -/
theorem claim_C1_counterexample :
    touch_all 100 ["root"] (.dir 0 (.cons "d.rs" (.dir 0 .nil) .nil)) =
      .ok (some (.dir 0 (.cons "d.rs" (.dir 100 .nil) .nil))) ∧
    resolve (.dir 0 (.cons "d.rs" (.dir 0 .nil) .nil)) ["d.rs"] =
      some (.dir 0 .nil) ∧
    resolve (.dir 0 (.cons "d.rs" (.dir 100 .nil) .nil)) ["d.rs"] =
      some (.dir 100 .nil) ∧
    (100 : Nat) ≠ 0 :=
  ⟨rfl, rfl, rfl, by decide⟩

/-- Witness for claim C1: a file `c.rs` under the root is touched from
mtime 7 to the current time 100. -/
theorem claim_C1_witness :
    ∃ x, resolve (.dir 0 (.cons "c.rs" (.file 7 9) .nil)) ["c.rs"] = some x ∧
      topMatch 100 (is_valid (["root"] ++ ["c.rs"])) x (.file 100 9) :=
  claim_C1 100 ["root"] ["c.rs"]
    (.dir 0 (.cons "c.rs" (.file 7 9) .nil))
    (.dir 0 (.cons "c.rs" (.file 100 9) .nil))
    (.file 100 9) rfl rfl

/-- Claim C2: `touch_all` never modifies the modification time of a file
whose path contains a `target` component or whose file name is `build.rs`:
any such regular file present after a successful run was present before with
the same modification time and size. -/
theorem claim_C2 (now : Nat) (root q : Path) (fs fs' : FsEntry) (m' sz : Nat)
    (h : touch_all now root fs = .ok (some fs'))
    (hx : resolve fs' q = some (.file m' sz))
    (hex : (root ++ q).contains "target" = true ∨
      file_name (root ++ q) = some "build.rs") :
    resolve fs q = some (.file m' sz) := by
  obtain ⟨x, hx₀, htm⟩ := touch_walk_resolve fs now root fs' h q (.file m' sz) hx
  have hv : is_valid (root ++ q) = false := by
    rcases hex with h1 | h1
    · exact is_valid_target h1
    · exact is_valid_build_rs h1
  rw [hv] at htm
  cases x with
  | file m s =>
    obtain ⟨h1, h2⟩ : sz = s ∧ m' = (if (false : Bool) then now else m) := htm
    have h2' : m' = m := by simpa using h2
    rw [hx₀, h1, h2']
  | dir mm cc => exact (htm : False).elim
  | other mm => exact (htm : False).elim

/-- Witness for claim C2: in a tree with `target/x.rs` and `build.rs`,
`touch_all` leaves both files' modification times (5 and 11) unchanged. -/
theorem claim_C2_witness :
    resolve excludedTree ["target", "x.rs"] = some (.file 5 7) ∧
    resolve excludedTree ["build.rs"] = some (.file 11 13) :=
  ⟨claim_C2 100 ["r"] ["target", "x.rs"] excludedTree excludedTree 5 7
      rfl rfl (Or.inl rfl),
    claim_C2 100 ["r"] ["build.rs"] excludedTree excludedTree 11 13
      rfl rfl (Or.inr rfl)⟩

/-- Claim C7: `touch_all` deletes every visited entry named
`CMakeCache.txt` (after a successful run none remains, whether or not any
other entry matched the inclusion predicate), its errors always carry an
offending `CMakeCache.txt` path, and a directory named `CMakeCache.txt`
(whose deletion by `fs::remove_file` fails) forces such an error. -/
theorem claim_C7 (now : Nat) (root : Path) (fs : FsEntry) :
    (∀ fs', touch_all now root fs = .ok (some fs') →
      ∀ q x', resolve fs' q = some x' →
        ¬ file_name q = some "CMakeCache.txt") ∧
    (∀ q', touch_all now root fs = .error q' →
      file_name q' = some "CMakeCache.txt") ∧
    (∀ q m cs, resolve fs q = some (.dir m cs) →
      file_name (root ++ q) = some "CMakeCache.txt" →
      ∃ q', touch_all now root fs = .error q' ∧
        file_name q' = some "CMakeCache.txt") := by
  refine ⟨?_, ?_, ?_⟩
  · intro fs' h q x' hx
    exact touch_walk_no_cmake_left fs now root fs' h q x' hx
  · intro q' h
    exact touch_walk_error_cmake fs now root q' h
  · intro q m cs hq hcm
    cases hres : touch_all now root fs with
    | ok r =>
      obtain ⟨m₀, s₀, hfile⟩ :=
        touch_walk_cmake_entries_are_files fs now root r hres q (.dir m cs) hq hcm
      exact FsEntry.noConfusion hfile
    | error q' =>
      exact ⟨q', rfl, touch_walk_error_cmake fs now root q' hres⟩

/-- Witness for claim C7: a `CMakeCache.txt` file is deleted even though
nothing else in its directory is touched, and a `CMakeCache.txt` directory
forces an error carrying a `CMakeCache.txt` path. -/
theorem claim_C7_witness :
    (¬ file_name ([] : Path) = some "CMakeCache.txt") ∧
    (∃ q', touch_all 100 ["r"] cmakeDirTree = .error q' ∧
      file_name q' = some "CMakeCache.txt") :=
  ⟨(claim_C7 100 ["r"] cmakeFileTree).1 (.dir 0 .nil) rfl [] (.dir 0 .nil) rfl,
    (claim_C7 100 ["r"] cmakeDirTree).2.2 ["CMakeCache.txt"] 3 .nil rfl rfl⟩

/-- An environment in which the in-place rename succeeds. -/
def envOk : MoveEnv := ⟨true, .exited 0, none, none⟩

/-- An environment in which the in-place rename fails and the `mv` process
cannot be launched. -/
def envLaunch : MoveEnv := ⟨false, .launchFailure, none, none⟩

/-- An environment in which the in-place rename fails and `mv` runs, exits
with status 1, and leaves partial state behind: the source has lost the file
`a` while the destination received a full copy. -/
def envPartial : MoveEnv :=
  ⟨false, .exited 1, some (.dir 0 (.cons "b" (.file 0 2) .nil)),
    some (.dir 0 (.cons "a" (.file 0 1) (.cons "b" (.file 0 2) .nil)))⟩

/-- An initial move state: a source tree of two files, no destination. -/
def stTwoFiles : MoveState :=
  ⟨some (.dir 0 (.cons "a" (.file 0 1) (.cons "b" (.file 0 2) .nil))), none⟩

/-- An initial move state: a single source file, no destination. -/
def stOneFile : MoveState := ⟨some (.file 3 5), none⟩

/-- Claim C5: whenever `rename(from, to)` succeeds, the source no longer
exists and the file count and total size found at the destination equal
those of the source tree before the move. -/
theorem claim_C5 (env : MoveEnv) (src dst : Path) (st : MoveState)
    (h : (rename env src dst st).2.2 = .ok ()) :
    (rename env src dst st).2.1.src = none ∧
    statsOpt (rename env src dst st).2.1.dst = statsOpt st.src := by
  by_cases hr : env.renameOk = true
  · simp [rename, hr]
  · cases hmv : env.mv with
    | launchFailure =>
      exfalso
      simp [rename, hr, hmv] at h
    | exited code =>
      by_cases hc : code = 0
      · subst hc
        simp [rename, hr, hmv]
      · exfalso
        simp [rename, hr, hmv, hc] at h

/-- Witness for claim C5: a successful in-place rename moves the single
source file to the destination. -/
theorem claim_C5_witness :
    (rename envOk ["a"] ["b"] stOneFile).2.1.src = none ∧
    statsOpt (rename envOk ["a"] ["b"] stOneFile).2.1.dst = statsOpt stOneFile.src :=
  claim_C5 envOk ["a"] ["b"] stOneFile rfl

/-- Claim C3 (amended): `rename` either succeeds, leaving the whole source
tree at the destination and the source absent, or returns an error; when the
error is that the fallback `mv` could not even be launched, the state is
untouched (source intact). A failed `mv` run, however, may leave partial
state — such partial state is never silent, being always accompanied by an
error. -/
theorem claim_C3 (env : MoveEnv) (src dst : Path) (st : MoveState) :
    ((rename env src dst st).2.2 = .ok () →
      (rename env src dst st).2.1.src = none ∧
      (rename env src dst st).2.1.dst = st.src) ∧
    ((rename env src dst st).2.2 = .error .launch →
      (rename env src dst st).2.1 = st) := by
  constructor
  · intro h
    by_cases hr : env.renameOk = true
    · simp [rename, hr]
    · cases hmv : env.mv with
      | launchFailure =>
        exfalso
        simp [rename, hr, hmv] at h
      | exited code =>
        by_cases hc : code = 0
        · subst hc
          simp [rename, hr, hmv]
        · exfalso
          simp [rename, hr, hmv, hc] at h
  · intro h
    by_cases hr : env.renameOk = true
    · exfalso
      simp [rename, hr] at h
    · cases hmv : env.mv with
      | launchFailure => simp [rename, hr, hmv]
      | exited code =>
        exfalso
        by_cases hc : code = 0
        · subst hc
          simp [rename, hr, hmv] at h
        · simp [rename, hr, hmv, hc] at h

/-- Counterexample to claim C3 as stated: with `mv` failing partway (exit
status 1), `rename` returns an error but the source tree is not left intact
— its stats changed from two files totalling 3 bytes to one file of 2 bytes.
The error is returned, so the partial state is not silent, but "source tree
left intact" does not hold. -/
theorem claim_C3_counterexample :
    (rename envPartial ["A"] ["B"] stTwoFiles).2.2 = .error (.mvExit 1) ∧
    statsOpt (rename envPartial ["A"] ["B"] stTwoFiles).2.1.src ≠
      statsOpt stTwoFiles.src := by
  constructor
  · rfl
  · decide

/-- Witness for claim C3: the success case moves the tree; the launch-failure
case leaves the state untouched. -/
theorem claim_C3_witness :
    ((rename envOk ["a"] ["b"] stOneFile).2.1.src = none ∧
      (rename envOk ["a"] ["b"] stOneFile).2.1.dst = stOneFile.src) ∧
    (rename envLaunch ["a"] ["b"] stOneFile).2.1 = stOneFile :=
  ⟨(claim_C3 envOk ["a"] ["b"] stOneFile).1 rfl,
    (claim_C3 envLaunch ["a"] ["b"] stOneFile).2 rfl⟩

/-- Claim C8: `rename` always first attempts the in-place rename; only if
that fails does it spawn `mv` with arguments `[from, to]`; exit status zero
is success, any non-zero exit status yields the `mvExit` error, and a launch
failure yields the distinct `launch` error. -/
theorem claim_C8 (env : MoveEnv) (src dst : Path) (st : MoveState) :
    (rename env src dst st).1.head? = some (.fsRename src dst) ∧
    (env.renameOk = true →
      (rename env src dst st).1 = [.fsRename src dst] ∧
      (rename env src dst st).2.2 = .ok ()) ∧
    (env.renameOk = false →
      (rename env src dst st).1 = [.fsRename src dst, .spawnMv src dst]) ∧
    (env.renameOk = false →
      ((rename env src dst st).2.2 = .ok () ↔ env.mv = .exited 0)) ∧
    (env.renameOk = false → env.mv = .launchFailure →
      (rename env src dst st).2.2 = .error .launch) ∧
    (∀ code, env.renameOk = false → env.mv = .exited code → ¬ code = 0 →
      (rename env src dst st).2.2 = .error (.mvExit code)) ∧
    (∀ code, RenameError.launch ≠ RenameError.mvExit code) := by
  refine ⟨?_, ?_, ?_, ?_, ?_, ?_, fun code h => RenameError.noConfusion h⟩
  · by_cases hr : env.renameOk = true
    · simp [rename, hr]
    · cases hmv : env.mv with
      | launchFailure => simp [rename, hr, hmv]
      | exited code => by_cases hc : code = 0 <;> simp [rename, hr, hmv, hc]
  · intro hok
    simp [rename, hok]
  · intro hf
    cases hmv : env.mv with
    | launchFailure => simp [rename, hf, hmv]
    | exited code => by_cases hc : code = 0 <;> simp [rename, hf, hmv, hc]
  · intro hf
    cases hmv : env.mv with
    | launchFailure => simp [rename, hf, hmv]
    | exited code =>
      by_cases hc : code = 0
      · subst hc
        simp [rename, hf, hmv]
      · simp [rename, hf, hmv, hc]
  · intro hf hl
    simp [rename, hf, hl]
  · intro code hf hmv hc
    simp [rename, hf, hmv, hc]

/-- Witness for claim C8: the three outcomes at concrete environments — a
successful in-place rename, a launch failure, and an `mv` exit status 1. -/
theorem claim_C8_witness :
    ((rename envOk ["a"] ["b"] stOneFile).1 = [.fsRename ["a"] ["b"]] ∧
      (rename envOk ["a"] ["b"] stOneFile).2.2 = .ok ()) ∧
    (rename envLaunch ["a"] ["b"] stOneFile).2.2 = .error .launch ∧
    (rename envPartial ["a"] ["b"] stOneFile).2.2 = .error (.mvExit 1) :=
  ⟨(claim_C8 envOk ["a"] ["b"] stOneFile).2.1 rfl,
    (claim_C8 envLaunch ["a"] ["b"] stOneFile).2.2.2.2.1 rfl rfl,
    (claim_C8 envPartial ["a"] ["b"] stOneFile).2.2.2.2.2.1 1 rfl rfl (by decide)⟩

/-- Claim C6: the `robocopy` fallback succeeds exactly when the spawned
utility's exit status is strictly below 8, and any run with status at or
above 8 yields an error carrying the exit status and the captured stderr and
stdout. -/
theorem claim_C6 (out : ProcessOutput) :
    (robocopy out = .ok () ↔ out.code < 8) ∧
    (8 ≤ out.code → robocopy out = .error ⟨out.code, out.stderr, out.stdout⟩) := by
  constructor
  · by_cases h : (8 : Int) ≤ out.code
    · unfold robocopy
      rw [if_pos h]
      constructor
      · intro he
        exact Except.noConfusion he
      · intro hlt
        omega
    · unfold robocopy
      rw [if_neg h]
      constructor
      · intro _
        omega
      · intro _
        rfl
  · intro h
    unfold robocopy
    rw [if_pos h]

/-- Witness for claim C6: exit status 9 is an error carrying the status and
both captured streams; exit status 3 is success. -/
theorem claim_C6_witness :
    robocopy ⟨9, "out", "err"⟩ = .error ⟨9, "err", "out"⟩ ∧
    (robocopy ⟨3, "o", "e"⟩ = .ok () ↔ (3 : Int) < 8) :=
  ⟨(claim_C6 ⟨9, "out", "err"⟩).2 (by decide), (claim_C6 ⟨3, "o", "e"⟩).1⟩

end CollectorFs
